import Mathlib

/-!
Verification of the multi-dialect lockfile parser and dependency-version
model of `action-dependency-diff` (file `src/lockfile.ts`).

JavaScript strings are modelled as `List Char` (`Str`).  A JS
`Map<string, Set<string>>` is modelled as an insertion-ordered association
list `List (Str × List Str)` (`VSet`); `Map.set` appends a fresh key at the
end and `Set.add` appends a fresh element at the end, exactly as in the
JS runtime, so the association-list model is observationally faithful.
`JSON.parse` is a platform builtin, not repository code; the two JSON-based
parsers (`parseNpmLock`, `parseBunLock`) are therefore parameterised by an
abstract parse function returning `none` exactly when `JSON.parse` throws,
and the structural interface types (`NpmLockFileLike`, `BunLockFileLike`)
of `src/lockfile.ts` are mirrored as Lean structures.
-/

abbrev Str := List Char

/-- JS `\s` whitespace class (the code points that can occur here). -/
def isWS (c : Char) : Bool :=
  c == ' ' || c == '\t' || c == '\n' || c == '\r' ||
  c == Char.ofNat 11 || c == Char.ofNat 12

/-- JS `String.prototype.trimStart`. -/
def trimStartL (s : Str) : Str := s.dropWhile isWS

/-- JS `String.prototype.trimEnd`. -/
def trimEndL (s : Str) : Str := (s.reverse.dropWhile isWS).reverse

/-- JS `String.prototype.trim`. -/
def trimL (s : Str) : Str := trimEndL (trimStartL s)

/-- JS `a.startsWith(pre)`. -/
def startsWithL (s pre : Str) : Prop := pre <+: s

instance (s pre : Str) : Decidable (startsWithL s pre) := by
  unfold startsWithL; exact inferInstance

/-- JS `a.endsWith(suf)`. -/
def endsWithL (s suf : Str) : Prop := suf <:+ s

instance (s suf : Str) : Decidable (endsWithL s suf) := by
  unfold endsWithL; exact inferInstance

/-- JS `a.includes(sub)`. -/
def containsSub (s sub : Str) : Prop := sub <:+: s

instance (s sub : Str) : Decidable (containsSub s sub) := by
  unfold containsSub; exact inferInstance

/-- JS `split(/\r?\n/)`, worker (accumulates the current line reversed). -/
def splitLinesGo : Str → Str → List Str
  | [], acc => [acc.reverse]
  | '\r' :: '\n' :: rest, acc => acc.reverse :: splitLinesGo rest []
  | '\n' :: rest, acc => acc.reverse :: splitLinesGo rest []
  | c :: rest, acc => splitLinesGo rest (c :: acc)

/-- JS `content.split(/\r?\n/)`. -/
def splitLines (s : Str) : List Str := splitLinesGo s []

/-- JS `s.indexOf(sub)`, worker. -/
def indexOfSubGo (sub : Str) : Str → Nat → Option Nat
  | [], i => if sub.isPrefixOf [] then some i else none
  | s@(_ :: t), i => if sub.isPrefixOf s then some i else indexOfSubGo sub t (i + 1)

/-- JS `s.indexOf(sub)` (`none` for `-1`). -/
def indexOfSub (s sub : Str) : Option Nat := indexOfSubGo sub s 0

/-- JS `s.lastIndexOf(c)`, worker. -/
def lastIndexOfCharGo (c : Char) : Str → Nat → Option Nat → Option Nat
  | [], _, best => best
  | x :: t, i, best => lastIndexOfCharGo c t (i + 1) (if x = c then some i else best)

/-- JS `s.lastIndexOf(c)` for a single character (`none` for `-1`). -/
def lastIndexOfChar (s : Str) (c : Char) : Option Nat := lastIndexOfCharGo c s 0 none

/-- JS `s.indexOf(c, start)` for a single character (`none` for `-1`). -/
def indexOfCharFrom (s : Str) (c : Char) (start : Nat) : Option Nat :=
  ((s.drop start).findIdx? (fun x => x == c)).map (· + start)

/-- JS `s.indexOf(c)` for a single character (`none` for `-1`). -/
def indexOfChar (s : Str) (c : Char) : Option Nat := s.findIdx? (fun x => x == c)

/-- JS `list.join('\n')`. -/
def joinLines : List Str → Str
  | [] => []
  | [l] => l
  | l :: rest => l ++ '\n' :: joinLines rest

/-- JS `s.split(sep)` for a non-empty separator `c :: cs`, worker.  The fuel
argument makes the recursion structural; every step consumes at least one
character, so `s.length + 1` fuel always suffices and the zero-fuel fallback
is unreachable. -/
def splitOnSubGo (c : Char) (cs : Str) : Nat → Str → Str → List Str
  | 0, s, acc => [acc.reverse ++ s]
  | _ + 1, [], acc => [acc.reverse]
  | fuel + 1, x :: t, acc =>
    if (c :: cs) <+: (x :: t) then
      acc.reverse :: splitOnSubGo c cs fuel ((x :: t).drop (cs.length + 1)) []
    else
      splitOnSubGo c cs fuel t (x :: acc)

/-- JS `s.split(sep)` for a non-empty separator string. -/
def splitOnSub (s : Str) (c : Char) (cs : Str) : List Str :=
  splitOnSubGo c cs (s.length + 1) s []

/-- The normalized mapping: `VersionsSet = Map<string, Set<string>>`. -/
abbrev VSet := List (Str × List Str)

/-- JS `map.get(name)` (`none` for `undefined`). -/
def lookupVS (m : VSet) (n : Str) : Option (List Str) :=
  (m.find? (fun p => p.1 = n)).map Prod.snd

/-- `prev.get(name) || new Set()` — the per-side set with empty default. -/
def getDVS (m : VSet) (n : Str) : List Str := (lookupVS m n).getD []

/-- JS `set.add(version)` (append iff not already present). -/
def setAdd (s : List Str) (v : Str) : List Str := if v ∈ s then s else s ++ [v]

/-- `addVersion` from `src/lockfile.ts`: insert `(name, version)` into the map. -/
def addVersion (m : VSet) (name version : Str) : VSet :=
  match lookupVS m name with
  | some _ => m.map (fun p => if p.1 = name then (p.1, setAdd p.2 version) else p)
  | none => m ++ [(name, [version])]

/-- `setsEqual` from `src/lockfile.ts`: size check then membership check. -/
def setsEqual (a b : List Str) : Prop := a.length = b.length ∧ ∀ v ∈ a, v ∈ b

instance (a b : List Str) : Decidable (setsEqual a b) := by
  unfold setsEqual; exact inferInstance

/-- One entry of the array returned by `diffDependencySets`. -/
structure DiffRec where
  name : Str
  previous : List Str
  current : List Str
deriving DecidableEq, Repr

/-- `new Set([...prev.keys(), ...curr.keys()])`: first-occurrence dedup, worker. -/
def dedupGo (seen : List Str) : List Str → List Str
  | [] => []
  | x :: rest =>
    if x ∈ seen then dedupGo seen rest else x :: dedupGo (x :: seen) rest

/-- First-occurrence deduplication (JS `Set` iteration order). -/
def dedupFirst (l : List Str) : List Str := dedupGo [] l

/-- `diffDependencySets` from `src/lockfile.ts`. -/
def diffDependencySets (prev curr : VSet) : List DiffRec :=
  (dedupFirst (prev.map Prod.fst ++ curr.map Prod.fst)).filterMap (fun n =>
    let a := getDVS prev n
    let b := getDVS curr n
    if setsEqual a b then none else some ⟨n, a, b⟩)

/-- Spec-side definition (refinement target, from the spec's words, not the
code): the versions present only in `a` — the set difference `a \ b`. -/
def specOnlyIn (a b : List Str) : List Str := a.filter (fun v => v ∉ b)

/-- Every value list stored in a well-formed `VSet` is duplicate-free. -/
def ValuesNodup (m : VSet) : Prop := ∀ p ∈ m, List.Nodup p.2

/-! The pnpm dialect parser (`parsePnpmLock`, `src/lockfile.ts` 76-111). -/

/-- JS regex `.` (no `/s` flag): any char except line terminators. -/

def dotC (c : Char) : Bool := c ≠ '\n' && c ≠ '\r'

/-- The single-quote character (code point 39). -/
def sqc : Char := Char.ofNat 39

/-- JS `/^packages:\s*$/.test(line)`. -/
def isPackagesLine (l : Str) : Bool :=
  (("packages:".toList)).isPrefixOf l && (l.drop 9).all isWS

/-- JS `/^\S.*:$/.test(line)`. -/
def topLevelKeyLine (l : Str) : Bool :=
  match l with
  | [] => false
  | cfirst :: rest =>
    !isWS cfirst && rest ≠ [] && rest.dropLast.all dotC && rest.getLast? == some ':'

/-- Lazy scan for `/^\s{2}(\S.*?):\s*$/`: earliest `:` whose tail is all
whitespace ends the capture; every captured char after the first must be
dot-matchable. -/
def pnpmKeyGo (acc : Str) : Str → Option Str
  | [] => none
  | ch :: t =>
    if ch = ':' ∧ t.all isWS then some acc.reverse
    else if dotC ch then pnpmKeyGo (ch :: acc) t
    else none

/-- JS `/^\s{2}(\S.*?):\s*$/.exec(line)` — the captured key, if any. -/
def pnpmEntryKey (l : Str) : Option Str :=
  match l with
  | w1 :: w2 :: cfirst :: rest =>
    if isWS w1 && isWS w2 && !isWS cfirst then pnpmKeyGo [cfirst] rest else none
  | _ => none

/-- Strip one matching pair of outer quotes (`slice(1, -1)` when both ends
carry the same quote character), as in `parsePnpmLock`. -/
def stripQuotesPair (key : Str) : Str :=
  if (key.head? == some '"' && key.getLast? == some '"') ||
     (key.head? == some sqc && key.getLast? == some sqc) then
    (key.drop 1).dropLast
  else key

/-- One iteration of the `parsePnpmLock` line loop (state: `inPackages`, result). -/
def pnpmStep (st : Bool × VSet) (line : Str) : Bool × VSet :=
  let (inPkgs, res) := st
  if !inPkgs then
    (isPackagesLine line, res)
  else if topLevelKeyLine line then
    (isPackagesLine line, res)
  else
    match pnpmEntryKey line with
    | none => (inPkgs, res)
    | some key0 =>
      let key1 := if key0.head? == some '/' then key0.drop 1 else key0
      let key := stripQuotesPair key1
      let core := match indexOfChar key '(' with
        | some i => key.take i
        | none => key
      match lastIndexOfChar core '@' with
      | none => (inPkgs, res)
      | some a =>
        if a = 0 then (inPkgs, res)
        else
          let name := core.take a
          let version := trimL (core.drop (a + 1))
          if version = [] then (inPkgs, res)
          else (inPkgs, addVersion res name version)

/-- `parsePnpmLock` from `src/lockfile.ts`. -/
def parsePnpmLock (content : Str) : VSet :=
  ((splitLines content).foldl pnpmStep (false, [])).2

/-! The yarn-classic parser (`parseYarnV1Lock`, `src/lockfile.ts` 113-157). -/

/-- JS `/^\s/.test(line)`. -/

def headWS (l : Str) : Bool :=
  match l.head? with
  | some ch => isWS ch
  | none => false

/-- JS `s.replace(/:$/, '')`. -/
def stripTrailingColonOnce (s : Str) : Str :=
  if s.getLast? == some ':' then s.dropLast else s

/-- JS `s.replace(/^q|q$/g, '')` for a quote character `q`. -/
def stripEdgeQuotes (q : Char) (s : Str) : Str :=
  let s1 := if s.head? == some q then s.drop 1 else s
  if s1.getLast? == some q then s1.dropLast else s1

/-- JS `/^\s{2}version\s+"([^"]+)"/.exec(line)` — the captured version. -/
def v1VersionMatch (l : Str) : Option Str :=
  match l with
  | w1 :: w2 :: rest =>
    if isWS w1 && isWS w2 && (("version".toList)).isPrefixOf rest then
      let r1 := rest.drop 7
      if r1.takeWhile isWS = [] then none
      else
        match r1.dropWhile isWS with
        | '"' :: r3 =>
          let cap := r3.takeWhile (fun x => x ≠ '"')
          if cap ≠ [] ∧ (r3.drop cap.length).head? = some '"' then some cap else none
        | _ => none
    else none
  | _ => none

/-- `!lines[i] || lines[i].startsWith('  ')` on the next line, ending the
header-collection loop. -/
def headerBreakNext : List Str → Bool
  | [] => true
  | nxt :: _ => nxt == ([] : Str) || (' ' :: ' ' :: []).isPrefixOf nxt

/-- The header-collection loop of `parseYarnV1Lock`: contiguous header lines
and the remaining lines. -/
def collectHeader : List Str → (List Str × List Str)
  | [] => ([], [])
  | hl :: rest =>
    if headerBreakNext rest then ([hl], rest)
    else
      let (hs, r) := collectHeader rest
      (hl :: hs, r)

/-- Specifier extraction: join headers with `\n`, split on `,\n`, trim,
strip one trailing `:` and the edge double quotes. -/
def v1Specifiers (headerLines : List Str) : List Str :=
  (splitOnSub (joinLines headerLines) ',' ['\n']).map (fun s =>
    stripEdgeQuotes '"' (stripTrailingColonOnce (trimL s)))

/-- `yarnV1SpecifierToName` from `src/lockfile.ts`: name before the last `@`. -/
def yarnV1SpecifierToName (spec : Str) : Option Str :=
  match lastIndexOfChar spec '@' with
  | none => none
  | some a => if a = 0 then none else some (spec.take a)

/-- Per-specifier insertion of `parseYarnV1Lock` (body of its `for` loop). -/
def specStepV1 (v : Str) (a : VSet) (s : Str) : VSet :=
  match yarnV1SpecifierToName s with
  | some n => addVersion a n v
  | none => a

/-- The body scan of `parseYarnV1Lock`: last `  version "…"` match before the
next top-level header (or blank), plus the unconsumed lines. -/
def v1ScanBody (ver : Option Str) : List Str → (Option Str × List Str)
  | [] => (ver, [])
  | l :: t =>
    if l = [] ∨ (¬ startsWithL l [' '] ∧ endsWithL (trimEndL l) [':']) then (ver, l :: t)
    else
      match v1VersionMatch l with
      | some v => v1ScanBody (some v) t
      | none => v1ScanBody ver t

/-- The outer loop of `parseYarnV1Lock` (fuel-indexed; each iteration consumes
at least one line, so `lines.length + 1` fuel is always enough). -/
def yarnV1Go : Nat → List Str → VSet → VSet
  | 0, _, acc => acc
  | _ + 1, [], acc => acc
  | fuel + 1, l :: t, acc =>
    if l = [] ∨ headWS l = true then yarnV1Go fuel t acc
    else if ¬ endsWithL (trimEndL l) [':'] then yarnV1Go fuel t acc
    else
      let (headerLines, rest) := collectHeader (l :: t)
      let specs := v1Specifiers headerLines
      let (ver?, rest2) := v1ScanBody none rest
      match ver? with
      | none => yarnV1Go fuel rest2 acc
      | some v => yarnV1Go fuel rest2 (specs.foldl (specStepV1 v) acc)

/-- `parseYarnV1Lock` from `src/lockfile.ts`. -/
def parseYarnV1Lock (content : Str) : VSet :=
  let ls := splitLines content
  yarnV1Go (ls.length + 1) ls []

/-! The yarn-berry parser (`parseYarnBerryLock`, `src/lockfile.ts` 159-203). -/

/-- Third regex alternative `([^\s#]+)`: a bare scalar. -/

def berryAlt3 (r2 : Str) : Option Str :=
  let cap := r2.takeWhile (fun x => !isWS x && x ≠ '#')
  if cap = [] then none else some cap

/-- `(?:"([^"]+)"|'([^']+)'|([^\s#]+))` with the regex's alternative order. -/
def berryAlt (r2 : Str) : Option Str :=
  match r2 with
  | [] => none
  | c :: r3 =>
    if c = '"' then
      let cap := r3.takeWhile (fun x => x ≠ '"')
      if cap ≠ [] ∧ (r3.drop cap.length).head? = some '"' then some cap else berryAlt3 r2
    else if c = sqc then
      let cap := r3.takeWhile (fun x => x ≠ sqc)
      if cap ≠ [] ∧ (r3.drop cap.length).head? = some sqc then some cap else berryAlt3 r2
    else berryAlt3 r2

/-- JS `/^\s{2}version:\s*(?:"([^"]+)"|'([^']+)'|([^\s#]+))/.exec(line)`. -/
def berryVersionMatch (l : Str) : Option Str :=
  match l with
  | w1 :: w2 :: rest =>
    if isWS w1 && isWS w2 && (("version:".toList)).isPrefixOf rest then
      berryAlt ((rest.drop 8).dropWhile isWS)
    else none
  | _ => none

/-- `yarnBerrySpecifierToName` from `src/lockfile.ts`: strip edge quotes, then
split at the second `@` for scoped specifiers, the first `@` otherwise. -/
def yarnBerrySpecifierToName (spec : Str) : Option Str :=
  let s := stripEdgeQuotes sqc (stripEdgeQuotes '"' spec)
  match s with
  | [] => none
  | c :: _ =>
    if c = '@' then
      match indexOfCharFrom s '@' 1 with
      | some a2 => some (s.take a2)
      | none => none
    else
      match indexOfChar s '@' with
      | some a1 => if a1 = 0 then none else some (s.take a1)
      | none => none

/-- Specifier list of a berry header line: split on `,`, trim, strip one
trailing `:`, strip double- then single-quote edges. -/
def berrySpecifiers (headerLine : Str) : List Str :=
  (splitOnSub headerLine ',' []).map (fun s =>
    stripEdgeQuotes sqc (stripEdgeQuotes '"' (stripTrailingColonOnce (trimL s))))

/-- Per-specifier insertion of `parseYarnBerryLock`. -/
def specStepBerry (v : Str) (a : VSet) (s : Str) : VSet :=
  match yarnBerrySpecifierToName s with
  | some n => addVersion a n v
  | none => a

/-- The body scan of `parseYarnBerryLock`. -/
def berryScanBody (ver : Option Str) : List Str → (Option Str × List Str)
  | [] => (ver, [])
  | l :: t =>
    if l = [] then (ver, l :: t)
    else if ¬ startsWithL l [' '] then (ver, l :: t)
    else
      match berryVersionMatch l with
      | some v => berryScanBody (some v) t
      | none => berryScanBody ver t

/-- The outer loop of `parseYarnBerryLock` (fuel-indexed). -/
def yarnBerryGo : Nat → List Str → VSet → VSet
  | 0, _, acc => acc
  | _ + 1, [], acc => acc
  | fuel + 1, l :: t, acc =>
    if l = [] ∨ startsWithL (trimStartL l) ['#'] then yarnBerryGo fuel t acc
    else if ¬ (startsWithL l ['"'] ∨ startsWithL l [sqc]) then yarnBerryGo fuel t acc
    else if ¬ endsWithL (trimEndL l) [':'] then yarnBerryGo fuel t acc
    else
      let specs := berrySpecifiers (trimL l)
      let (ver?, rest2) := berryScanBody none t
      match ver? with
      | none => yarnBerryGo fuel rest2 acc
      | some v => yarnBerryGo fuel rest2 (specs.foldl (specStepBerry v) acc)

/-- `parseYarnBerryLock` from `src/lockfile.ts`. -/
def parseYarnBerryLock (content : Str) : VSet :=
  let ls := splitLines content
  yarnBerryGo (ls.length + 1) ls []

/-! The npm parser (`parseNpmLock`, `src/lockfile.ts` 48-74).  `JSON.parse`
is abstracted as `jp`; `NpmLockFileLike` mirrors the structural interface of
the source (optional fields, possibly-falsy entries). -/

structure NpmEntry where
  name : Option Str
  version : Option Str

structure NpmLockFileLike where
  packages : Option (List (Str × Option NpmEntry))

/-- JS falsiness of an optional string (`undefined`/`null` or `''`). -/
def jsFalsy (o : Option Str) : Bool :=
  match o with
  | none => true
  | some s => s == ([] : Str)

/-- Name derivation of `parseNpmLock`: last non-empty segment of
`key.split('node_modules/')`, with one trailing `/` stripped. -/
def npmDeriveName (key : Str) : Option Str :=
  let parts := (splitOnSub key 'n' (("ode_modules/".toList))).filter (fun p => p ≠ [])
  match parts.getLast? with
  | none => none
  | some last => some (if last.getLast? == some '/' then last.dropLast else last)

/-- Per-entry body of the `parseNpmLock` loop. -/
def npmStep (res : VSet) (kv : Str × Option NpmEntry) : VSet :=
  let version? := match kv.2 with | none => none | some e => e.version
  if jsFalsy version? then res
  else if kv.1 = [] then res
  else
    let orig : Option Str := match kv.2 with | none => none | some e => e.name
    let name? := if jsFalsy orig then npmDeriveName kv.1 else orig
    match name? with
    | none => res
    | some nm => if nm = [] then res else addVersion res nm (version?.getD [])

/-- `parseNpmLock` from `src/lockfile.ts`, with `JSON.parse` abstracted. -/
def parseNpmLock (jp : Str → Option NpmLockFileLike) (content : Str) : VSet :=
  match jp content with
  | none => []
  | some json => (json.packages.getD []).foldl npmStep []

/-! The minimal/bun parser (`parseBunLock`, `src/lockfile.ts` 214-270). -/

structure BunEntry where
  name : Option Str
  version : Option Str

inductive BunPackages where
  | arr : List (Option BunEntry) → BunPackages
  | obj : List (Str × Option BunEntry) → BunPackages

structure BunLockFileLike where
  packages : Option BunPackages

/-- One line of the naive JSONC comment stripper: first `//` preceded by
whitespace (keeping the whitespace), worker. -/
def stripLineCommentGo : Str → Str
  | [] => []
  | ch :: t =>
    if isWS ch && ('/' :: '/' :: []).isPrefixOf t then [ch]
    else ch :: stripLineCommentGo t

/-- JS `l.replace(/(^|\s)\/\/.*$/, '$1')`. -/
def stripLineComment (l : Str) : Str :=
  if ('/' :: '/' :: []).isPrefixOf l then [] else stripLineCommentGo l

/-- The comment-stripping retry transform of `parseBunLock`. -/
def stripLineComments (content : Str) : Str :=
  joinLines ((splitLines content).map stripLineComment)

/-- Key-to-name derivation of `parseBunLock`: the first `@` at a positive
index, or the second `@` when the key is scoped. -/
def bunNameFromKey (spec : Str) : Option Str :=
  match spec with
  | [] => none
  | c :: _ =>
    if c = '@' then
      match indexOfCharFrom spec '@' 1 with
      | some a2 => some (spec.take a2)
      | none => none
    else
      match indexOfChar spec '@' with
      | some a1 => if a1 = 0 then none else some (spec.take a1)
      | none => none

/-- Per-entry body of the array branch of `parseBunLock`. -/
def bunArrStep (res : VSet) (e? : Option BunEntry) : VSet :=
  match e? with
  | none => res
  | some e =>
    if !jsFalsy e.name && !jsFalsy e.version then
      addVersion res (e.name.getD []) (e.version.getD [])
    else res

/-- Per-entry body of the object branch of `parseBunLock`. -/
def bunObjStep (res : VSet) (kv : Str × Option BunEntry) : VSet :=
  let version? := match kv.2 with | none => none | some e => e.version
  if jsFalsy version? then res
  else
    let orig : Option Str := match kv.2 with | none => none | some e => e.name
    let name? := if jsFalsy orig then bunNameFromKey kv.1 else orig
    match name? with
    | none => res
    | some nm => if nm = [] then res else addVersion res nm (version?.getD [])

/-- The post-parse body of `parseBunLock` (array and object `packages` shapes). -/
def bunFromJson (json : BunLockFileLike) : VSet :=
  match json.packages with
  | none => []
  | some (BunPackages.arr entries) => entries.foldl bunArrStep []
  | some (BunPackages.obj entries) => entries.foldl bunObjStep []

/-- `parseBunLock` from `src/lockfile.ts`: strict parse, then the
comment-stripped retry, then give up with an empty map. -/
def parseBunLock (jp : Str → Option BunLockFileLike) (content : Str) : VSet :=
  match jp content with
  | some json => bunFromJson json
  | none =>
    match jp (stripLineComments content) with
    | some json => bunFromJson json
    | none => []

/-! Dialect dispatch (`parseLockfile`, `src/lockfile.ts` 24-36). -/

inductive Dialect where
  | npm | pnpm | yarnClassic | yarnBerry | bun | unknown
deriving DecidableEq, Repr

def yarnV1Marker : Str := ("yarn lockfile v1".toList)

/-- The dialect grammar `parseLockfile` dispatches to, as a function of the
path and the content (the `yarn.lock` branch sniffs the content). -/
def lockDialect (path content : Str) : Dialect :=
  if endsWithL path (("package-lock.json".toList)) then .npm
  else if endsWithL path (("pnpm-lock.yaml".toList)) then .pnpm
  else if endsWithL path (("yarn.lock".toList)) then
    (if containsSub content yarnV1Marker then .yarnClassic else .yarnBerry)
  else if endsWithL path (("bun.lock".toList)) then .bun
  else .unknown

/-- Run a single dialect grammar on the content. -/
def runDialect (jpN : Str → Option NpmLockFileLike) (jpB : Str → Option BunLockFileLike)
    (d : Dialect) (content : Str) : VSet :=
  match d with
  | .npm => parseNpmLock jpN content
  | .pnpm => parsePnpmLock content
  | .yarnClassic => parseYarnV1Lock content
  | .yarnBerry => parseYarnBerryLock content
  | .bun => parseBunLock jpB content
  | .unknown => []

/-- `parseLockfile` from `src/lockfile.ts`. -/
def parseLockfile (jpN : Str → Option NpmLockFileLike) (jpB : Str → Option BunLockFileLike)
    (path content : Str) : VSet :=
  if endsWithL path (("package-lock.json".toList)) then parseNpmLock jpN content
  else if endsWithL path (("pnpm-lock.yaml".toList)) then parsePnpmLock content
  else if endsWithL path (("yarn.lock".toList)) then
    (if containsSub content yarnV1Marker then parseYarnV1Lock content
     else parseYarnBerryLock content)
  else if endsWithL path (("bun.lock".toList)) then parseBunLock jpB content
  else []

/-! The line locators (`findLockfileLine` and helpers, `src/lockfile.ts`
325-476). -/

/-- The right-brace character (code point 125). -/

def rbrace : Char := Char.ofNat 125

/-- `countLinesBefore` from `src/lockfile.ts`: 1 + newlines before `index`. -/
def countLinesBefore (content : Str) (index : Nat) : Nat :=
  1 + (content.take index).countP (fun ch => ch == '\n')

/-- `findLineInNpmLock` from `src/lockfile.ts` (the version is unused there). -/
def findLineInNpmLock (content name : Str) : Option Nat :=
  let key := (("\"node_modules/".toList)) ++ name ++ ['"']
  match indexOfSub content key with
  | some idx => some (countLinesBefore content idx)
  | none =>
    let alt := (("\"name\": \"".toList)) ++ name ++ ['"']
    match indexOfSub content alt with
    | some j => some (countLinesBefore content j)
    | none => none

/-- An indexed first-match search (the JS `for` loops of the locators). -/
def findIdxL {α : Type} (p : α → Bool) : List α → Nat → Option Nat
  | [], _ => none
  | x :: t, i => if p x then some i else findIdxL p t (i + 1)

/-- `findLineInPnpmLock` from `src/lockfile.ts`. -/
def findLineInPnpmLock (content name version : Str) : Option Nat :=
  let lines := splitLines content
  let needle := '/' :: name ++ '@' :: version
  match findIdxL (fun l =>
      decide (l ≠ []) && decide (containsSub l needle) &&
      decide (endsWithL (trimEndL l) [':'])) lines 0 with
  | some i => some (i + 1)
  | none =>
    match findIdxL (fun l =>
        decide (l ≠ []) && decide (startsWithL (trimStartL l) needle)) lines 0 with
    | some i => some (i + 1)
    | none => none

/-- Body scan of `findLineInYarnV1Lock`.  (The source's in-loop break on a
top-level header is unreachable: the loop guard already restricts to blank or
space-indented lines.) -/
def v1LocInner (version : Str) : List Str → Nat → Option Nat
  | [], _ => none
  | l :: t, j =>
    if startsWithL l [' '] ∨ l = [] then
      match v1VersionMatch l with
      | some v => if v = version then some (j + 1) else v1LocInner version t (j + 1)
      | none => v1LocInner version t (j + 1)
    else none

/-- Header scan of `findLineInYarnV1Lock`. -/
def v1LocOuter (name version : Str) : List Str → Nat → Option Nat
  | [], _ => none
  | header :: t, i =>
    if header ≠ [] ∧ ¬ startsWithL header [' '] ∧ endsWithL (trimEndL header) [':'] ∧
       containsSub header (name ++ ['@']) then
      match v1LocInner version t (i + 1) with
      | some r => some r
      | none => v1LocOuter name version t (i + 1)
    else v1LocOuter name version t (i + 1)

/-- `findLineInYarnV1Lock` from `src/lockfile.ts`. -/
def findLineInYarnV1Lock (content name version : Str) : Option Nat :=
  v1LocOuter name version (splitLines content) 0

/-- Body scan of `findLineInYarnBerryLock`. -/
def berryLocInner (version : Str) : List Str → Nat → Option Nat
  | [], _ => none
  | l :: t, j =>
    if startsWithL l [' '] ∨ l = [] then
      match berryVersionMatch l with
      | some v => if v = version then some (j + 1) else berryLocInner version t (j + 1)
      | none => berryLocInner version t (j + 1)
    else none

/-- Header scan of `findLineInYarnBerryLock`. -/
def berryLocOuter (name version : Str) : List Str → Nat → Option Nat
  | [], _ => none
  | header :: t, i =>
    if header ≠ [] ∧ ¬ startsWithL header [' '] ∧
       ¬ startsWithL (trimStartL header) ['#'] ∧
       endsWithL (trimEndL header) [':'] ∧ containsSub header (name ++ ['@']) then
      match berryLocInner version t (i + 1) with
      | some r => some r
      | none => berryLocOuter name version t (i + 1)
    else berryLocOuter name version t (i + 1)

/-- `findLineInYarnBerryLock` from `src/lockfile.ts`. -/
def findLineInYarnBerryLock (content name version : Str) : Option Nat :=
  berryLocOuter name version (splitLines content) 0

/-- One position of the dynamic-regex test
`new RegExp(`"version"\s*:\s*"<escaped version>"`).test(line)`: the escaping
makes the version literal, so the pattern is a literal token sequence. -/
def bunVerHere (version l : Str) : Bool :=
  if (("\"version\"".toList)).isPrefixOf l then
    match (l.drop 9).dropWhile isWS with
    | ':' :: r2 => ('"' :: version ++ ['"']).isPrefixOf (r2.dropWhile isWS)
    | _ => false
  else false

/-- The regex test at every start position of the line. -/
def bunVerTest (version : Str) : Str → Bool
  | [] => false
  | l@(_ :: t) => bunVerHere version l || bunVerTest version t

/-- The ≤30-line window scan of `findLineInBunLock` (regex test first, then
the `}` break). -/
def bunWindowScan (version : Str) : List Str → Nat → Option Nat
  | [], _ => none
  | v :: t, j =>
    if bunVerTest version v then some (j + 1)
    else if v ≠ [] ∧ rbrace ∈ v then none
    else bunWindowScan version t (j + 1)

/-- First pass of `findLineInBunLock`: a `"name"` line mentioning the quoted
package name opens a 30-line window searched for the version field. -/
def bunLocPass1 (name version : Str) : List Str → Nat → Option Nat
  | [], _ => none
  | l :: t, i =>
    if l ≠ [] ∧ containsSub l (("\"name\"".toList)) ∧
       containsSub l ('"' :: name ++ ['"']) then
      match bunWindowScan version ((l :: t).take 30) i with
      | some r => some r
      | none => bunLocPass1 name version t (i + 1)
    else bunLocPass1 name version t (i + 1)

/-- `findLineInBunLock` from `src/lockfile.ts`. -/
def findLineInBunLock (content name version : Str) : Option Nat :=
  let lines := splitLines content
  match bunLocPass1 name version lines 0 with
  | some r => some r
  | none =>
    match findIdxL (fun l =>
        decide (containsSub l ('"' :: name ++ '@' :: version ++ ['"']))) lines 0 with
    | some i => some (i + 1)
    | none =>
      match findIdxL (fun l => bunVerTest version l) lines 0 with
      | some i => some (i + 1)
      | none => none

/-- `findLockfileLine` from `src/lockfile.ts`. -/
def findLockfileLine (path content name version : Str) : Option Nat :=
  if endsWithL path (("package-lock.json".toList)) then findLineInNpmLock content name
  else if endsWithL path (("pnpm-lock.yaml".toList)) then
    findLineInPnpmLock content name version
  else if endsWithL path (("yarn.lock".toList)) then
    (if containsSub content yarnV1Marker then findLineInYarnV1Lock content name version
     else findLineInYarnBerryLock content name version)
  else if endsWithL path (("bun.lock".toList)) then findLineInBunLock content name version
  else none

/-! Concrete inputs used by counterexamples and witnesses. -/

def c1Base : VSet := [((("x".toList)), [(("1".toList)), (("2".toList))])]

def c1Curr : VSet := [((("x".toList)), [(("2".toList)), (("3".toList))])]

def c2Input : Str := (("\"a@^1.0.0\", \"a@^1.1.0\":\n  version \"1.1.0\"".toList))

def c2BogusName : Str := (("a@^1.0.0\", \"a".toList))

def c3QuotedSlash : Str := (("packages:\n  \"/@scope/name@1.2.3\":\n".toList))

def c3Unquoted : Str := (("packages:\n  /@scope/name@1.2.3:\n".toList))

def c3DQuoted : Str := (("packages:\n  \"@scope/name@1.2.3\":\n".toList))

def c3SQuoted : Str := (("packages:\n  '@scope/name@1.2.3':\n".toList))

def c3YarnV1 : Str := (("\"@scope/name@^1.0.0\":\n  version \"1.2.3\"".toList))

def c3Berry : Str := (("\"@scope/name@npm:1.2.3\":\n  version: \"1.2.3\"".toList))

def scopedName : Str := (("@scope/name".toList))

def ver123 : Str := (("1.2.3".toList))

def jpNone1 : Str → Option NpmLockFileLike := fun _ => none

def jpNone2 : Str → Option BunLockFileLike := fun _ => none

def c3NpmJson : NpmLockFileLike :=
  ⟨some [((("node_modules/@scope/name".toList)), some ⟨none, some ver123⟩)]⟩

def jpC3 : Str → Option NpmLockFileLike := fun _ => some c3NpmJson

def c3BunJson : BunLockFileLike :=
  ⟨some (BunPackages.obj [((("@scope/name@1.2.3".toList)), some ⟨none, some ver123⟩)])⟩

def c8Content : Str := (("\"node_modules/foo\"".toList))

/-- Parser-output invariant: no name maps to an empty version set. -/
def NoEmptyVals (m : VSet) : Prop := ∀ p ∈ m, p.2 ≠ ([] : List Str)

instance (m : VSet) : Decidable (ValuesNodup m) := by
  unfold ValuesNodup; exact List.decidableBAll _ m

/-! Lemmas about the diff engine. -/

theorem mem_dedupGo {x : Str} : ∀ {l seen : List Str},
    x ∈ dedupGo seen l ↔ x ∈ l ∧ x ∉ seen := by
  intro l
  induction l with
  | nil => intro seen; simp [dedupGo]
  | cons y rest ih =>
    intro seen
    by_cases hy : y ∈ seen
    · simp only [dedupGo, if_pos hy, ih]
      constructor
      · rintro ⟨hm, hn⟩
        exact ⟨List.mem_cons_of_mem _ hm, hn⟩
      · rintro ⟨hm, hn⟩
        rcases List.mem_cons.mp hm with rfl | hm
        · exact absurd hy hn
        · exact ⟨hm, hn⟩
    · simp only [dedupGo, if_neg hy]
      constructor
      · intro hm
        rcases List.mem_cons.mp hm with rfl | hm
        · exact ⟨List.mem_cons_self _ _, hy⟩
        · rcases (@ih (y :: seen)).mp hm with ⟨h1, h2⟩
          refine ⟨List.mem_cons_of_mem _ h1, fun hx => h2 (List.mem_cons_of_mem _ hx)⟩
      · rintro ⟨hm, hn⟩
        rcases List.mem_cons.mp hm with rfl | hm
        · exact List.mem_cons_self _ _
        · by_cases hxy : x = y
          · subst hxy; exact List.mem_cons_self _ _
          · exact List.mem_cons_of_mem _ ((@ih (y :: seen)).mpr
              ⟨hm, fun hx => by
                rcases List.mem_cons.mp hx with h | h
                · exact hxy h
                · exact hn h⟩)

theorem mem_dedupFirst {x : Str} {l : List Str} : x ∈ dedupFirst l ↔ x ∈ l := by
  unfold dedupFirst
  rw [mem_dedupGo]
  simp

theorem nodup_dedupGo : ∀ (l seen : List Str), (dedupGo seen l).Nodup := by
  intro l
  induction l with
  | nil => intro seen; simp [dedupGo]
  | cons y rest ih =>
    intro seen
    by_cases hy : y ∈ seen
    · simpa [dedupGo, if_pos hy] using ih seen
    · simp only [dedupGo, if_neg hy]
      refine List.Nodup.cons ?_ (ih (y :: seen))
      intro hmem
      exact (mem_dedupGo.mp hmem).2 (List.mem_cons_self _ _)

theorem nodup_dedupFirst (l : List Str) : (dedupFirst l).Nodup :=
  nodup_dedupGo l []

/-- Membership in the diff output, characterised. -/
theorem mem_diffDependencySets {prev curr : VSet} {r : DiffRec} :
    r ∈ diffDependencySets prev curr ↔
      (r.name ∈ prev.map Prod.fst ∨ r.name ∈ curr.map Prod.fst) ∧
      r.previous = getDVS prev r.name ∧ r.current = getDVS curr r.name ∧
      ¬ setsEqual (getDVS prev r.name) (getDVS curr r.name) := by
  unfold diffDependencySets
  rw [List.mem_filterMap]
  constructor
  · rintro ⟨n, hn, hf⟩
    simp only at hf
    by_cases hs : setsEqual (getDVS prev n) (getDVS curr n)
    · rw [if_pos hs] at hf; exact absurd hf (by simp)
    · rw [if_neg hs] at hf
      have hr : r = ⟨n, getDVS prev n, getDVS curr n⟩ := by
        exact (Option.some.injEq _ _).mp hf |>.symm
      subst hr
      have hmem : n ∈ prev.map Prod.fst ++ curr.map Prod.fst := mem_dedupFirst.mp hn
      exact ⟨List.mem_append.mp hmem, rfl, rfl, hs⟩
  · rintro ⟨hmem, hp, hc, hs⟩
    refine ⟨r.name, mem_dedupFirst.mpr (List.mem_append.mpr hmem), ?_⟩
    simp only [if_neg hs]
    cases r with
    | mk n p c =>
      simp only at hp hc ⊢
      rw [hp, hc]

/-- The names in the diff output are pairwise distinct. -/
theorem nodup_diff_names (prev curr : VSet) :
    ((diffDependencySets prev curr).map DiffRec.name).Nodup := by
  unfold diffDependencySets
  have key : ∀ (l : List Str),
      (l.filterMap (fun n =>
        let a := getDVS prev n
        let b := getDVS curr n
        if setsEqual a b then none else some (⟨n, a, b⟩ : DiffRec))).map DiffRec.name
      = l.filter (fun n => ¬ setsEqual (getDVS prev n) (getDVS curr n)) := by
    intro l
    induction l with
    | nil => rfl
    | cons x rest ih =>
      by_cases hs : setsEqual (getDVS prev x) (getDVS curr x)
      · simp [List.filterMap_cons, List.filter_cons, hs, ih]
      · simp [List.filterMap_cons, List.filter_cons, hs, ih]
  rw [key]
  exact (nodup_dedupFirst _).filter _

/-- `setsEqual` is symmetric on duplicate-free lists (JS `Set`s). -/
theorem setsEqual_symm {a b : List Str} (ha : a.Nodup) :
    setsEqual a b → setsEqual b a := by
  rintro ⟨hlen, hsub⟩
  have hsubset : a ⊆ b := fun v hv => hsub v hv
  have hperm : a.Perm b :=
    (ha.subperm hsubset).perm_of_length_le (le_of_eq hlen.symm)
  exact ⟨hlen.symm, fun v hv => hperm.symm.subset hv⟩

theorem getDVS_nodup {m : VSet} (h : ValuesNodup m) (n : Str) :
    (getDVS m n).Nodup := by
  unfold getDVS lookupVS
  cases hf : m.find? (fun p => p.1 = n) with
  | none => exact List.nodup_nil
  | some p => exact h p (List.mem_of_find?_eq_some hf)

theorem parseLockfile_eq_runDialect (jpN : Str → Option NpmLockFileLike)
    (jpB : Str → Option BunLockFileLike) (path content : Str) :
    parseLockfile jpN jpB path content =
      runDialect jpN jpB (lockDialect path content) content := by
  unfold parseLockfile lockDialect runDialect
  repeat' split
  all_goals first | rfl | contradiction

/-! Invariant infrastructure for C9. -/

theorem nilNEV : NoEmptyVals [] := by
  intro p hp
  exact absurd hp (List.not_mem_nil p)

theorem setAddNeNil (s : List Str) (v : Str) : setAdd s v ≠ [] := by
  unfold setAdd
  split
  · exact List.ne_nil_of_mem (by assumption)
  · simp

theorem addVersionKeeps {m : VSet} (hm : NoEmptyVals m) (n v : Str) :
    NoEmptyVals (addVersion m n v) := by
  unfold addVersion
  cases lookupVS m n with
  | some _ =>
    intro p hp
    rcases List.mem_map.mp hp with ⟨q, hq, rfl⟩
    split
    · exact setAddNeNil _ _
    · exact hm q hq
  | none =>
    intro p hp
    rcases List.mem_append.mp hp with h | h
    · exact hm p h
    · rcases List.mem_singleton.mp h with rfl
      simp

theorem foldlKeeps {α : Type} (f : VSet → α → VSet)
    (hf : ∀ m a, f m a = m ∨ ∃ n v, f m a = addVersion m n v) :
    ∀ (l : List α) (m : VSet), NoEmptyVals m → NoEmptyVals (l.foldl f m) := by
  intro l
  induction l with
  | nil => intro m hm; exact hm
  | cons a t ih =>
    intro m hm
    have hstep : NoEmptyVals (f m a) := by
      rcases hf m a with h | ⟨n, v, h⟩
      · rw [h]; exact hm
      · rw [h]; exact addVersionKeeps hm n v
    exact ih _ hstep

theorem specStepV1Add (v : Str) :
    ∀ m s, specStepV1 v m s = m ∨ ∃ n w, specStepV1 v m s = addVersion m n w := by
  intro m s
  unfold specStepV1
  split
  · exact Or.inr ⟨_, _, rfl⟩
  · exact Or.inl rfl

theorem specStepBerryAdd (v : Str) :
    ∀ m s, specStepBerry v m s = m ∨ ∃ n w, specStepBerry v m s = addVersion m n w := by
  intro m s
  unfold specStepBerry
  split
  · exact Or.inr ⟨_, _, rfl⟩
  · exact Or.inl rfl

theorem npmStepAdd :
    ∀ m kv, npmStep m kv = m ∨ ∃ n v, npmStep m kv = addVersion m n v := by
  intro m kv
  unfold npmStep
  dsimp only
  repeat' split
  all_goals first | exact Or.inl rfl | exact Or.inr ⟨_, _, rfl⟩

theorem bunArrStepAdd :
    ∀ m e, bunArrStep m e = m ∨ ∃ n v, bunArrStep m e = addVersion m n v := by
  intro m e
  unfold bunArrStep
  repeat' (first | split | dsimp only)
  all_goals first | exact Or.inl rfl | exact Or.inr ⟨_, _, rfl⟩

theorem bunObjStepAdd :
    ∀ m kv, bunObjStep m kv = m ∨ ∃ n v, bunObjStep m kv = addVersion m n v := by
  intro m kv
  unfold bunObjStep
  dsimp only
  repeat' split
  all_goals first | exact Or.inl rfl | exact Or.inr ⟨_, _, rfl⟩

theorem pnpmStepSnd :
    ∀ (b : Bool) (res : VSet) (l : Str),
      (pnpmStep (b, res) l).2 = res ∨ ∃ n v, (pnpmStep (b, res) l).2 = addVersion res n v := by
  intro b res l
  unfold pnpmStep
  dsimp only
  repeat' split
  all_goals first | exact Or.inl rfl | exact Or.inr ⟨_, _, rfl⟩

theorem pnpmFoldKeeps :
    ∀ (lines : List Str) (st : Bool × VSet), NoEmptyVals st.2 →
      NoEmptyVals (lines.foldl pnpmStep st).2 := by
  intro lines
  induction lines with
  | nil => intro st h; exact h
  | cons l t ih =>
    intro st h
    rcases st with ⟨b, res⟩
    have hstep : NoEmptyVals (pnpmStep (b, res) l).2 := by
      rcases pnpmStepSnd b res l with he | ⟨n, v, he⟩
      · rw [he]; exact h
      · rw [he]; exact addVersionKeeps h n v
    exact ih _ hstep

theorem yarnV1GoKeeps : ∀ (fuel : Nat) (ls : List Str) (acc : VSet),
    NoEmptyVals acc → NoEmptyVals (yarnV1Go fuel ls acc) := by
  intro fuel
  induction fuel with
  | zero => intro ls acc h; simpa [yarnV1Go] using h
  | succ fuel ih =>
    intro ls acc h
    cases ls with
    | nil => simpa [yarnV1Go] using h
    | cons l t =>
      simp only [yarnV1Go]
      repeat' split
      all_goals first
        | exact ih _ _ h
        | exact ih _ _ (foldlKeeps _ (specStepV1Add _) _ _ h)

theorem yarnBerryGoKeeps : ∀ (fuel : Nat) (ls : List Str) (acc : VSet),
    NoEmptyVals acc → NoEmptyVals (yarnBerryGo fuel ls acc) := by
  intro fuel
  induction fuel with
  | zero => intro ls acc h; simpa [yarnBerryGo] using h
  | succ fuel ih =>
    intro ls acc h
    cases ls with
    | nil => simpa [yarnBerryGo] using h
    | cons l t =>
      simp only [yarnBerryGo]
      repeat' split
      all_goals first
        | exact ih _ _ h
        | exact ih _ _ (foldlKeeps _ (specStepBerryAdd _) _ _ h)

theorem bunFromJsonKeeps (j : BunLockFileLike) : NoEmptyVals (bunFromJson j) := by
  unfold bunFromJson
  repeat' split
  all_goals first
    | exact nilNEV
    | exact foldlKeeps _ bunArrStepAdd _ _ nilNEV
    | exact foldlKeeps _ bunObjStepAdd _ _ nilNEV

/-- C1 (counterexample): on base `x ↦ \x7b1, 2\x7d` and current `x ↦ \x7b2, 3\x7d`,
`diffDependencySets` emits the record carrying the full per-side sets, not the
set differences `\x7b1\x7d` and `\x7b3\x7d` the claim predicts. -/
theorem c1_counterexample :
    diffDependencySets c1Base c1Curr =
      [⟨(("x".toList)), [(("1".toList)), (("2".toList))], [(("2".toList)), (("3".toList))]⟩] ∧
    specOnlyIn (getDVS c1Base (("x".toList))) (getDVS c1Curr (("x".toList))) = [(("1".toList))] ∧
    specOnlyIn (getDVS c1Curr (("x".toList))) (getDVS c1Base (("x".toList))) = [(("3".toList))] ∧
    diffDependencySets c1Base c1Curr ≠
      [⟨(("x".toList)), [(("1".toList))], [(("3".toList))]⟩] := by
  refine ⟨by decide, by decide, by decide, by decide⟩

/-- C1 (amended): `diffDependencySets` returns exactly one record per name
present in either side whose version set differs (names are pairwise
distinct), and each record carries the FULL per-side version sets (the
empty set for an absent name), not the set differences. -/
theorem c1_diff_records (prev curr : VSet) :
    ((diffDependencySets prev curr).map DiffRec.name).Nodup ∧
    ∀ r : DiffRec, r ∈ diffDependencySets prev curr ↔
      ((r.name ∈ prev.map Prod.fst ∨ r.name ∈ curr.map Prod.fst) ∧
       r.previous = getDVS prev r.name ∧ r.current = getDVS curr r.name ∧
       ¬ setsEqual (getDVS prev r.name) (getDVS curr r.name)) :=
  ⟨nodup_diff_names prev curr, fun _ => mem_diffDependencySets⟩

/-- C1 (witness): the characterisation instantiated on the counterexample pair. -/
theorem c1_witness :
    (⟨(("x".toList)), [(("1".toList)), (("2".toList))],
      [(("2".toList)), (("3".toList))]⟩ : DiffRec) ∈ diffDependencySets c1Base c1Curr :=
  ((c1_diff_records c1Base c1Curr).2 _).mpr (by decide)

/-- C2 (code bug): on the single-line yarn-classic header
`"a@^1.0.0", "a@^1.1.0":` with body `  version "1.1.0"`, the parser splits
the header on `,\n` (never present on a single line), so instead of the
claimed `a ↦ \x7b1.1.0\x7d` it produces one entry under the garbled name
`a@^1.0.0", "a`, and no entry named `a` at all. -/
theorem c2_yarn_v1_header : parseYarnV1Lock c2Input = [(c2BogusName, [(("1.1.0".toList))])] ∧
    lookupVS (parseYarnV1Lock c2Input) (("a".toList)) = none := by
  refine ⟨by decide, by decide⟩

/-- C3 (counterexample): for the pnpm packages-block key
`"/@scope/name@1.2.3"` (double-quoted, legacy leading slash) the parser
strips the slash only before unquoting, so the produced name keeps the
slash: `/@scope/name`, and no entry `@scope/name` exists. -/
theorem c3_counterexample :
    parsePnpmLock c3QuotedSlash = [((("/@scope/name".toList)), [ver123])] ∧
    lookupVS (parsePnpmLock c3QuotedSlash) scopedName = none := by
  refine ⟨by decide, by decide⟩

/-- C3 (amended): scoped names round-trip through every dialect parser for
the shapes the code actually handles — the pnpm key may carry the legacy
slash only unquoted, or be quoted (single or double) without the slash; a
quoted key that retains the slash keeps it in the name. -/
theorem c3_scoped_names :
    parsePnpmLock c3Unquoted = [(scopedName, [ver123])] ∧
    parsePnpmLock c3DQuoted = [(scopedName, [ver123])] ∧
    parsePnpmLock c3SQuoted = [(scopedName, [ver123])] ∧
    parseYarnV1Lock c3YarnV1 = [(scopedName, [ver123])] ∧
    parseYarnBerryLock c3Berry = [(scopedName, [ver123])] ∧
    parseNpmLock jpC3 ([] : Str) = [(scopedName, [ver123])] ∧
    bunFromJson c3BunJson = [(scopedName, [ver123])] := by
  refine ⟨by decide, by decide, by decide, by decide, by decide, by decide, by decide⟩

/-- C4 (counterexample): for the filename `yarn.lock` the selected grammar
depends on the content — a text containing the `yarn lockfile v1` marker
selects the classic grammar, any other text the berry grammar, refuting the
two-run claim that content never influences dialect selection. -/
theorem c4_counterexample :
    lockDialect (("yarn.lock".toList)) yarnV1Marker = Dialect.yarnClassic ∧
    lockDialect (("yarn.lock".toList)) ([] : Str) = Dialect.yarnBerry ∧
    lockDialect (("yarn.lock".toList)) yarnV1Marker ≠
      lockDialect (("yarn.lock".toList)) ([] : Str) := by
  refine ⟨by decide, by decide, by decide⟩

/-- C4 (amended): `parseLockfile` always runs exactly the grammar selected by
`lockDialect`, and for every filename NOT ending in `yarn.lock` that
selection is a function of the filename alone (two-run property); only the
`yarn.lock` family is further split by the `yarn lockfile v1` content marker. -/
theorem c4_dialect_from_filename :
    (∀ (jpN : Str → Option NpmLockFileLike) (jpB : Str → Option BunLockFileLike)
       (path content : Str),
      parseLockfile jpN jpB path content =
        runDialect jpN jpB (lockDialect path content) content) ∧
    (∀ path t1 t2 : Str, ¬ endsWithL path (("yarn.lock".toList)) →
      lockDialect path t1 = lockDialect path t2) := by
  constructor
  · exact parseLockfile_eq_runDialect
  · intro path t1 t2 h
    unfold lockDialect
    by_cases h1 : endsWithL path (("package-lock.json".toList))
    · rw [if_pos h1, if_pos h1]
    · rw [if_neg h1, if_neg h1]
      by_cases h2 : endsWithL path (("pnpm-lock.yaml".toList))
      · rw [if_pos h2, if_pos h2]
      · rw [if_neg h2, if_neg h2, if_neg h, if_neg h]

/-- C4 (witness): the filename-only selection applied to `package-lock.json`
with two different contents. -/
theorem c4_witness :
    lockDialect (("package-lock.json".toList)) (("abc".toList)) =
      lockDialect (("package-lock.json".toList)) ([] : Str) :=
  c4_dialect_from_filename.2 _ _ _ (by decide)

/-- C5: `diffDependencySets` is symmetric in structure — on well-formed
version sets (JS `Set`s are duplicate-free), a record `(n, R, D)` appears in
`diff A B` exactly when `(n, D, R)` appears in `diff B A`. -/
theorem c5_diff_symmetric (A B : VSet) (hA : ValuesNodup A) (hB : ValuesNodup B) :
    ∀ n R D, (⟨n, R, D⟩ : DiffRec) ∈ diffDependencySets A B ↔
      (⟨n, D, R⟩ : DiffRec) ∈ diffDependencySets B A := by
  intro n R D
  rw [mem_diffDependencySets, mem_diffDependencySets]
  constructor
  · rintro ⟨hmem, hp, hc, hs⟩
    exact ⟨hmem.symm, hc, hp,
      fun hEq => hs (setsEqual_symm (getDVS_nodup hB n) hEq)⟩
  · rintro ⟨hmem, hp, hc, hs⟩
    exact ⟨hmem.symm, hc, hp,
      fun hEq => hs (setsEqual_symm (getDVS_nodup hA n) hEq)⟩

/-- C5 (witness): symmetry instantiated on `A = [x ↦ \x7b1\x7d]`, `B = ∅`. -/
theorem c5_witness :
    (⟨(("x".toList)), [(("1".toList))], []⟩ : DiffRec) ∈
        diffDependencySets [((("x".toList)), [(("1".toList))])] [] ↔
      (⟨(("x".toList)), [], [(("1".toList))]⟩ : DiffRec) ∈
        diffDependencySets [] [((("x".toList)), [(("1".toList))])] :=
  c5_diff_symmetric [((("x".toList)), [(("1".toList))])] []
    (by decide) (by decide) _ _ _

/-- C6 (counterexample): for the bun packages-object key `a@b@c` (version
present, name omitted) the parser derives the name `a` by the FIRST-`@` rule,
while the pnpm/yarn-classic last-`@` rule (`yarnV1SpecifierToName`) yields
`a@b` — the two rules disagree, refuting "the same last-@ splitting rule". -/
theorem c6_counterexample :
    bunFromJson ⟨some (BunPackages.obj
      [((("a@b@c".toList)), some ⟨none, some (("1".toList))⟩)])⟩ =
      [((("a".toList)), [(("1".toList))])] ∧
    bunNameFromKey (("a@b@c".toList)) = some (("a".toList)) ∧
    yarnV1SpecifierToName (("a@b@c".toList)) = some (("a@b".toList)) ∧
    bunNameFromKey (("a@b@c".toList)) ≠ yarnV1SpecifierToName (("a@b@c".toList)) := by
  refine ⟨by decide, by decide, by decide, by decide⟩

/-- Edge-quote stripping is the identity on strings with no quote at either
edge. -/
theorem stripEdgeQuotesId (q : Char) (s : Str) (h1 : s.head? ≠ some q)
    (h2 : s.getLast? ≠ some q) : stripEdgeQuotes q s = s := by
  unfold stripEdgeQuotes
  have e1 : (s.head? == some q) = false := by
    rw [beq_eq_false_iff_ne]; exact h1
  have e2 : (s.getLast? == some q) = false := by
    rw [beq_eq_false_iff_ne]; exact h2
  simp [e1, e2]

/-- C6 (amended): a bun object entry with a version and no explicit name gets
its name from the key by the first-`@` rule with the scoped-name refinement —
i.e. exactly the yarn-berry rule (`yarnBerrySpecifierToName`, on keys without
edge quotes), not the last-`@` rule of pnpm/yarn-classic. -/
theorem c6_bun_name_rule :
    (∀ key ver : Str, ver ≠ [] →
      bunFromJson ⟨some (BunPackages.obj [(key, some ⟨none, some ver⟩)])⟩ =
        (match bunNameFromKey key with
         | some nm => if nm = [] then [] else [(nm, [ver])]
         | none => ([] : VSet))) ∧
    (∀ key : Str, key.head? ≠ some '"' → key.getLast? ≠ some '"' →
      key.head? ≠ some sqc → key.getLast? ≠ some sqc →
      bunNameFromKey key = yarnBerrySpecifierToName key) := by
  constructor
  · intro key ver hv
    cases hk : bunNameFromKey key with
    | none => simp [bunFromJson, bunObjStep, jsFalsy, hv, hk, addVersion, lookupVS]
    | some nm =>
      by_cases hnm : nm = []
      · simp [bunFromJson, bunObjStep, jsFalsy, hv, hk, hnm, addVersion, lookupVS]
      · simp [bunFromJson, bunObjStep, jsFalsy, hv, hk, hnm, addVersion, lookupVS]
  · intro key h1 h2 h3 h4
    unfold yarnBerrySpecifierToName
    rw [stripEdgeQuotesId _ _ h1 h2, stripEdgeQuotesId _ _ h3 h4]
    rfl

/-- C6 (witness): the amended rule instantiated on the scoped key
`@s/n@1.0`. -/
theorem c6_witness :
    bunFromJson ⟨some (BunPackages.obj
      [((("@s/n@1.0".toList)), some ⟨none, some (("1.0".toList))⟩)])⟩ =
      [((("@s/n".toList)), [(("1.0".toList))])] ∧
    bunNameFromKey (("@s/n@1.0".toList)) = yarnBerrySpecifierToName (("@s/n@1.0".toList)) := by
  constructor
  · exact (c6_bun_name_rule.1 (("@s/n@1.0".toList)) (("1.0".toList)) (by decide)).trans
      (by decide)
  · exact c6_bun_name_rule.2 _ (by decide) (by decide) (by decide) (by decide)

/-- C7: when `JSON.parse` fails on the input (and, for the minimal/bun
parser, also on the comment-stripped retry), both JSON-based parsers return
the empty version set — the failure is caught, never propagated. -/
theorem c7_malformed_json (jpN : Str → Option NpmLockFileLike)
    (jpB : Str → Option BunLockFileLike) (content : Str)
    (h1 : jpN content = none) (h2 : jpB content = none)
    (h3 : jpB (stripLineComments content) = none) :
    parseNpmLock jpN content = [] ∧ parseBunLock jpB content = [] := by
  constructor
  · unfold parseNpmLock; rw [h1]
  · unfold parseBunLock; rw [h2, h3]

/-- C7 (witness): instantiated with an always-failing parse function on a
non-JSON text. -/
theorem c7_witness :
    parseNpmLock jpNone1 (("not json".toList)) = [] ∧
    parseBunLock jpNone2 (("not json".toList)) = [] :=
  c7_malformed_json jpNone1 jpNone2 (("not json".toList)) rfl rfl rfl

/-- C9: every version set produced by any dialect parser satisfies the
invariant that no name maps to an empty set of versions — names are only
inserted together with a version (`addVersion`). -/
theorem c9_no_empty_sets (jpN : Str → Option NpmLockFileLike)
    (jpB : Str → Option BunLockFileLike) (content : Str) :
    NoEmptyVals (parseNpmLock jpN content) ∧
    NoEmptyVals (parsePnpmLock content) ∧
    NoEmptyVals (parseYarnV1Lock content) ∧
    NoEmptyVals (parseYarnBerryLock content) ∧
    NoEmptyVals (parseBunLock jpB content) := by
  refine ⟨?_, ?_, ?_, ?_, ?_⟩
  · unfold parseNpmLock
    cases jpN content with
    | none => exact nilNEV
    | some json => exact foldlKeeps _ npmStepAdd _ _ nilNEV
  · unfold parsePnpmLock
    exact pnpmFoldKeeps _ (false, []) nilNEV
  · unfold parseYarnV1Lock
    exact yarnV1GoKeeps _ _ _ nilNEV
  · unfold parseYarnBerryLock
    exact yarnBerryGoKeeps _ _ _ nilNEV
  · unfold parseBunLock
    cases jpB content with
    | some json => exact bunFromJsonKeeps json
    | none =>
      cases jpB (stripLineComments content) with
      | some json => exact bunFromJsonKeeps json
      | none => exact nilNEV

/-- C9 (witness): the invariant applied to the entry the pnpm parser
extracts from a concrete packages block. -/
theorem c9_witness :
    (scopedName, [ver123]) ∈ parsePnpmLock c3Unquoted ∧ ([ver123] : List Str) ≠ [] :=
  ⟨by decide, (c9_no_empty_sets jpNone1 jpNone2 c3Unquoted).2.1 (scopedName, [ver123]) (by decide)⟩

/-- C10: for a path matching none of the four recognised lockfile suffixes,
`parseLockfile` returns the empty version set and `findLockfileLine` returns
`none` — unknown dialects degrade silently at both interfaces. -/
theorem c10_unknown_dialect (jpN : Str → Option NpmLockFileLike)
    (jpB : Str → Option BunLockFileLike) (path content name version : Str)
    (h1 : ¬ endsWithL path (("package-lock.json".toList)))
    (h2 : ¬ endsWithL path (("pnpm-lock.yaml".toList)))
    (h3 : ¬ endsWithL path (("yarn.lock".toList)))
    (h4 : ¬ endsWithL path (("bun.lock".toList))) :
    parseLockfile jpN jpB path content = [] ∧
    findLockfileLine path content name version = none := by
  unfold parseLockfile findLockfileLine
  rw [if_neg h1, if_neg h2, if_neg h3, if_neg h4,
      if_neg h1, if_neg h2, if_neg h3, if_neg h4]
  exact ⟨rfl, rfl⟩

/-- C10 (witness): instantiated on the unrecognised filename `foo.txt`. -/
theorem c10_witness :
    parseLockfile jpNone1 jpNone2 (("foo.txt".toList)) (("abc".toList)) = [] ∧
    findLockfileLine (("foo.txt".toList)) (("abc".toList)) (("a".toList)) (("1".toList)) = none :=
  c10_unknown_dialect jpNone1 jpNone2 _ _ _ _
    (by decide) (by decide) (by decide) (by decide)

/-! Infrastructure for C8: totality and bounds of the line locators. -/

theorem findIdxLNone {α : Type} (p : α → Bool) :
    ∀ (l : List α) (i : Nat), (∀ x ∈ l, p x = false) → findIdxL p l i = none := by
  intro l
  induction l with
  | nil => intro i _; rfl
  | cons x t ih =>
    intro i h
    unfold findIdxL
    rw [if_neg (by simp [h x (List.mem_cons_self x t)])]
    exact ih _ (fun y hy => h y (List.mem_cons_of_mem x hy))

theorem memSplitLinesGoInfix :
    ∀ (s acc l : Str), l ∈ splitLinesGo s acc → l <:+: (acc.reverse ++ s) := by
  intro s acc
  induction s, acc using splitLinesGo.induct with
  | case1 acc =>
    intro l hl
    rcases List.mem_singleton.mp hl with rfl
    exact ⟨[], [], by simp⟩
  | case2 rest acc ih =>
    intro l hl
    rcases List.mem_cons.mp hl with rfl | hl
    · exact ⟨[], '\r' :: '\n' :: rest, by simp⟩
    · exact (ih l hl).trans ⟨acc.reverse ++ ['\r', '\n'], [], by simp⟩
  | case3 rest acc ih =>
    intro l hl
    rcases List.mem_cons.mp hl with rfl | hl
    · exact ⟨[], '\n' :: rest, by simp⟩
    · exact (ih l hl).trans ⟨acc.reverse ++ ['\n'], [], by simp⟩
  | case4 c rest acc2 h1 h2 ih =>
    intro l hl
    rw [splitLinesGo.eq_def] at hl
    split at hl
    · rename_i heq
      exact absurd heq (by simp)
    · rename_i rest1 heq
      injection heq with hc hr
      exact (h1 rest1 hc hr).elim
    · rename_i rest2 heq
      injection heq with hc hr
      exact (h2 hc).elim
    · rename_i c2 rest2 heq
      injection heq with hc hr
      subst hc
      subst hr
      have hi := ih l hl
      rw [List.reverse_cons, List.append_assoc] at hi
      exact hi

theorem memSplitLinesInfix {s l : Str} (h : l ∈ splitLines s) : l <:+: s := by
  have := memSplitLinesGoInfix s [] l h
  simpa using this

theorem indexOfSubGoInfix (sub : Str) :
    ∀ (s : Str) (i k : Nat), indexOfSubGo sub s i = some k → sub <:+: s := by
  intro s
  induction s with
  | nil =>
    intro i k h
    unfold indexOfSubGo at h
    split at h
    · rename_i hc
      exact (List.isPrefixOf_iff_prefix.mp hc).isInfix
    · exact absurd h (by simp)
  | cons x t ih =>
    intro i k h
    unfold indexOfSubGo at h
    split at h
    · rename_i hc
      exact (List.isPrefixOf_iff_prefix.mp hc).isInfix
    · exact ((ih _ _ h).trans (List.suffix_cons x t).isInfix)

theorem indexOfSubInfix {s sub : Str} {k : Nat} (h : indexOfSub s sub = some k) :
    sub <:+: s :=
  indexOfSubGoInfix sub s 0 k h

theorem countLinesBeforeGe (content : Str) (i : Nat) : 1 ≤ countLinesBefore content i :=
  Nat.le_add_right 1 _

/-! npm locator. -/

theorem findLineInNpmLockGe {content name : Str} {k : Nat}
    (h : findLineInNpmLock content name = some k) : 1 ≤ k := by
  unfold findLineInNpmLock at h
  dsimp only at h
  split at h
  · cases Option.some.inj h
    exact countLinesBeforeGe _ _
  · split at h
    · cases Option.some.inj h
      exact countLinesBeforeGe _ _
    · exact absurd h (by simp)

theorem findLineInNpmLockNone {content name : Str} (hn : ¬ containsSub content name) :
    findLineInNpmLock content name = none := by
  unfold findLineInNpmLock
  dsimp only
  cases h1 : indexOfSub content ((("\"node_modules/".toList)) ++ name ++ ['"']) with
  | some idx =>
    exact absurd ((List.infix_append _ _ _).trans (indexOfSubInfix h1)) hn
  | none =>
    cases h2 : indexOfSub content ((("\"name\": \"".toList)) ++ name ++ ['"']) with
    | some idx =>
      exact absurd ((List.infix_append _ _ _).trans (indexOfSubInfix h2)) hn
    | none => rfl

/-! pnpm locator. -/

theorem findLineInPnpmLockGe {content name version : Str} {k : Nat}
    (h : findLineInPnpmLock content name version = some k) : 1 ≤ k := by
  unfold findLineInPnpmLock at h
  dsimp only at h
  split at h
  · cases Option.some.inj h
    omega
  · split at h
    · cases Option.some.inj h
      omega
    · exact absurd h (by simp)

theorem findLineInPnpmLockNone {content name version : Str}
    (hn : ¬ containsSub content name) :
    findLineInPnpmLock content name version = none := by
  unfold findLineInPnpmLock
  have hmem : ∀ l ∈ splitLines content, ¬ containsSub l ('/' :: name ++ '@' :: version) := by
    intro l hl hc
    have h1 : name <:+: ('/' :: name ++ '@' :: version) := by
      have := List.infix_append ['/'] name ('@' :: version)
      simpa using this
    exact hn ((h1.trans hc).trans (memSplitLinesInfix hl))
  have e1 := findIdxLNone (fun l =>
      decide (l ≠ []) && decide (containsSub l ('/' :: name ++ '@' :: version)) &&
      decide (endsWithL (trimEndL l) [':'])) (splitLines content) 0
    (by
      intro l hl
      simp
      intro _ hc
      exact absurd hc (hmem l hl))
  have e2 := findIdxLNone (fun l =>
      decide (l ≠ []) && decide (startsWithL (trimStartL l) ('/' :: name ++ '@' :: version)))
    (splitLines content) 0
    (by
      intro l hl
      have hns : ¬ startsWithL (trimStartL l) ('/' :: name ++ '@' :: version) := by
        intro hs
        exact hmem l hl (hs.isInfix.trans (List.dropWhile_suffix isWS).isInfix)
      simp
      intro _
      exact hns)
  dsimp only
  rw [e1, e2]

/-! yarn-classic locator. -/

theorem v1VersionMatchInfix : ∀ (l v : Str), v1VersionMatch l = some v → v <:+: l := by
  intro l v h
  cases l with
  | nil => simp [v1VersionMatch] at h
  | cons w1 l1 =>
    cases l1 with
    | nil => simp [v1VersionMatch] at h
    | cons w2 rest =>
      unfold v1VersionMatch at h
      dsimp only at h
      split at h
      · split at h
        · exact absurd h (by simp)
        · split at h
          · rename_i r3 heq
            split at h
            · have hcv : (r3.takeWhile (fun x => x ≠ '"')) = v := Option.some.inj h
              have c1 : v <+: r3 := hcv ▸ List.takeWhile_prefix _
              have s3 : r3 <:+ (rest.drop 7).dropWhile isWS := by
                rw [heq]; exact List.suffix_cons _ _
              have s2 : (rest.drop 7).dropWhile isWS <:+ rest.drop 7 :=
                List.dropWhile_suffix _
              have s1 : rest.drop 7 <:+ rest := List.drop_suffix _ _
              have s0 : rest <:+ w1 :: w2 :: rest :=
                (List.suffix_cons w2 rest).trans (List.suffix_cons w1 _)
              exact c1.isInfix.trans (s3.trans (s2.trans (s1.trans s0))).isInfix
            · exact absurd h (by simp)
          · exact absurd h (by simp)
      · exact absurd h (by simp)

theorem v1LocInnerGe (version : Str) :
    ∀ (ls : List Str) (j k : Nat), v1LocInner version ls j = some k → 1 ≤ k := by
  intro ls
  induction ls with
  | nil => intro j k h; exact absurd h (by simp [v1LocInner])
  | cons l t ih =>
    intro j k h
    unfold v1LocInner at h
    split at h
    · split at h
      · split at h
        · cases Option.some.inj h
          omega
        · exact ih _ _ h
      · exact ih _ _ h
    · exact absurd h (by simp)

theorem v1LocInnerNone (version : Str) :
    ∀ (ls : List Str) (j : Nat),
      (∀ l ∈ ls, ∀ w, v1VersionMatch l = some w → w ≠ version) →
      v1LocInner version ls j = none := by
  intro ls
  induction ls with
  | nil => intro j _; rfl
  | cons l t ih =>
    intro j hno
    unfold v1LocInner
    split
    · cases hm : v1VersionMatch l with
      | some w =>
        dsimp only
        rw [if_neg (hno l (List.mem_cons_self l t) w hm)]
        exact ih _ (fun x hx => hno x (List.mem_cons_of_mem l hx))
      | none =>
        exact ih _ (fun x hx => hno x (List.mem_cons_of_mem l hx))
    · rfl

theorem v1LocOuterGe (name version : Str) :
    ∀ (ls : List Str) (i k : Nat), v1LocOuter name version ls i = some k → 1 ≤ k := by
  intro ls
  induction ls with
  | nil => intro i k h; exact absurd h (by simp [v1LocOuter])
  | cons l t ih =>
    intro i k h
    unfold v1LocOuter at h
    split at h
    · split at h
      · rename_i hr
        cases Option.some.inj h
        exact v1LocInnerGe version t (i + 1) _ hr
      · exact ih _ _ h
    · exact ih _ _ h

theorem v1LocOuterNone (name version : Str) :
    ∀ (ls : List Str) (i : Nat),
      (∀ l ∈ ls, ¬ containsSub l (name ++ ['@'])) →
      v1LocOuter name version ls i = none := by
  intro ls
  induction ls with
  | nil => intro i _; rfl
  | cons l t ih =>
    intro i hno
    unfold v1LocOuter
    rw [if_neg (fun hc => hno l (List.mem_cons_self l t) hc.2.2.2)]
    exact ih _ (fun x hx => hno x (List.mem_cons_of_mem l hx))

theorem findLineInYarnV1LockGe {content name version : Str} {k : Nat}
    (h : findLineInYarnV1Lock content name version = some k) : 1 ≤ k :=
  v1LocOuterGe name version (splitLines content) 0 k h

theorem findLineInYarnV1LockNone {content name version : Str}
    (hn : ¬ containsSub content name) :
    findLineInYarnV1Lock content name version = none := by
  unfold findLineInYarnV1Lock
  refine v1LocOuterNone name version _ 0 ?_
  intro l hl hc
  exact hn (((List.prefix_append name ['@']).isInfix.trans hc).trans (memSplitLinesInfix hl))

/-! yarn-berry locator. -/

theorem berryAlt3Infix {r2 v : Str} (h : berryAlt3 r2 = some v) : v <:+: r2 := by
  unfold berryAlt3 at h
  dsimp only at h
  split at h
  · exact absurd h (by simp)
  · have hcv := Option.some.inj h
    exact (hcv ▸ List.takeWhile_prefix _).isInfix

theorem berryAltInfix : ∀ (r2 v : Str), berryAlt r2 = some v → v <:+: r2 := by
  intro r2 v h
  cases r2 with
  | nil => simp [berryAlt] at h
  | cons c r3 =>
    unfold berryAlt at h
    dsimp only at h
    split at h
    · split at h
      · have hcv := Option.some.inj h
        exact ((hcv ▸ List.takeWhile_prefix _).isInfix).trans (List.suffix_cons c r3).isInfix
      · exact berryAlt3Infix h
    · split at h
      · split at h
        · have hcv := Option.some.inj h
          exact ((hcv ▸ List.takeWhile_prefix _).isInfix).trans (List.suffix_cons c r3).isInfix
        · exact berryAlt3Infix h
      · exact berryAlt3Infix h

theorem berryVersionMatchInfix : ∀ (l v : Str), berryVersionMatch l = some v → v <:+: l := by
  intro l v h
  cases l with
  | nil => simp [berryVersionMatch] at h
  | cons w1 l1 =>
    cases l1 with
    | nil => simp [berryVersionMatch] at h
    | cons w2 rest =>
      unfold berryVersionMatch at h
      dsimp only at h
      split at h
      · have c1 := berryAltInfix _ _ h
        have s2 : (rest.drop 8).dropWhile isWS <:+ rest.drop 8 := List.dropWhile_suffix _
        have s1 : rest.drop 8 <:+ rest := List.drop_suffix _ _
        have s0 : rest <:+ w1 :: w2 :: rest :=
          (List.suffix_cons w2 rest).trans (List.suffix_cons w1 _)
        exact c1.trans (s2.trans (s1.trans s0)).isInfix
      · exact absurd h (by simp)

theorem berryLocInnerGe (version : Str) :
    ∀ (ls : List Str) (j k : Nat), berryLocInner version ls j = some k → 1 ≤ k := by
  intro ls
  induction ls with
  | nil => intro j k h; exact absurd h (by simp [berryLocInner])
  | cons l t ih =>
    intro j k h
    unfold berryLocInner at h
    split at h
    · split at h
      · split at h
        · cases Option.some.inj h
          omega
        · exact ih _ _ h
      · exact ih _ _ h
    · exact absurd h (by simp)

theorem berryLocInnerNone (version : Str) :
    ∀ (ls : List Str) (j : Nat),
      (∀ l ∈ ls, ∀ w, berryVersionMatch l = some w → w ≠ version) →
      berryLocInner version ls j = none := by
  intro ls
  induction ls with
  | nil => intro j _; rfl
  | cons l t ih =>
    intro j hno
    unfold berryLocInner
    split
    · cases hm : berryVersionMatch l with
      | some w =>
        dsimp only
        rw [if_neg (hno l (List.mem_cons_self l t) w hm)]
        exact ih _ (fun x hx => hno x (List.mem_cons_of_mem l hx))
      | none =>
        exact ih _ (fun x hx => hno x (List.mem_cons_of_mem l hx))
    · rfl

theorem berryLocOuterGe (name version : Str) :
    ∀ (ls : List Str) (i k : Nat), berryLocOuter name version ls i = some k → 1 ≤ k := by
  intro ls
  induction ls with
  | nil => intro i k h; exact absurd h (by simp [berryLocOuter])
  | cons l t ih =>
    intro i k h
    unfold berryLocOuter at h
    split at h
    · split at h
      · rename_i hr
        cases Option.some.inj h
        exact berryLocInnerGe version t (i + 1) _ hr
      · exact ih _ _ h
    · exact ih _ _ h

theorem berryLocOuterNone (name version : Str) :
    ∀ (ls : List Str) (i : Nat),
      (∀ l ∈ ls, ¬ containsSub l (name ++ ['@'])) →
      berryLocOuter name version ls i = none := by
  intro ls
  induction ls with
  | nil => intro i _; rfl
  | cons l t ih =>
    intro i hno
    unfold berryLocOuter
    rw [if_neg (fun hc => hno l (List.mem_cons_self l t) hc.2.2.2.2)]
    exact ih _ (fun x hx => hno x (List.mem_cons_of_mem l hx))

theorem findLineInYarnBerryLockGe {content name version : Str} {k : Nat}
    (h : findLineInYarnBerryLock content name version = some k) : 1 ≤ k :=
  berryLocOuterGe name version (splitLines content) 0 k h

theorem findLineInYarnBerryLockNone {content name version : Str}
    (hn : ¬ containsSub content name) :
    findLineInYarnBerryLock content name version = none := by
  unfold findLineInYarnBerryLock
  refine berryLocOuterNone name version _ 0 ?_
  intro l hl hc
  exact hn (((List.prefix_append name ['@']).isInfix.trans hc).trans (memSplitLinesInfix hl))

/-! bun locator. -/

theorem bunVerHereInfix {version l : Str} (h : bunVerHere version l = true) :
    version <:+: l := by
  unfold bunVerHere at h
  split at h
  · split at h
    · rename_i r2 heq
      have hp : ('"' :: version ++ ['"']) <+: (r2.dropWhile isWS) :=
        List.isPrefixOf_iff_prefix.mp h
      have c1 : version <:+: ('"' :: version ++ ['"']) := by
        have := List.infix_append ['"'] version ['"']
        simpa using this
      have s3 : r2.dropWhile isWS <:+ r2 := List.dropWhile_suffix _
      have s2 : r2 <:+ (l.drop 9).dropWhile isWS := by
        rw [heq]; exact List.suffix_cons _ _
      have s1 : (l.drop 9).dropWhile isWS <:+ l.drop 9 := List.dropWhile_suffix _
      have s0 : l.drop 9 <:+ l := List.drop_suffix _ _
      exact (c1.trans hp.isInfix).trans (s3.trans (s2.trans (s1.trans s0))).isInfix
    · exact absurd h (by simp)
  · exact absurd h (by simp)

theorem bunVerTestInfix (version : Str) :
    ∀ (l : Str), bunVerTest version l = true → version <:+: l := by
  intro l
  induction l with
  | nil => intro h; exact absurd h (by simp [bunVerTest])
  | cons x t ih =>
    intro h
    unfold bunVerTest at h
    rcases Bool.or_eq_true_iff.mp h with h1 | h2
    · exact bunVerHereInfix h1
    · exact (ih h2).trans (List.suffix_cons x t).isInfix

theorem bunWindowScanGe (version : Str) :
    ∀ (ls : List Str) (j k : Nat), bunWindowScan version ls j = some k → 1 ≤ k := by
  intro ls
  induction ls with
  | nil => intro j k h; exact absurd h (by simp [bunWindowScan])
  | cons l t ih =>
    intro j k h
    unfold bunWindowScan at h
    split at h
    · cases Option.some.inj h
      omega
    · split at h
      · exact absurd h (by simp)
      · exact ih _ _ h

theorem bunWindowScanNone (version : Str) :
    ∀ (ls : List Str) (j : Nat),
      (∀ l ∈ ls, bunVerTest version l = false) →
      bunWindowScan version ls j = none := by
  intro ls
  induction ls with
  | nil => intro j _; rfl
  | cons l t ih =>
    intro j hno
    unfold bunWindowScan
    rw [if_neg (by simp [hno l (List.mem_cons_self l t)])]
    split
    · rfl
    · exact ih _ (fun x hx => hno x (List.mem_cons_of_mem l hx))

theorem bunLocPass1Ge (name version : Str) :
    ∀ (ls : List Str) (i k : Nat), bunLocPass1 name version ls i = some k → 1 ≤ k := by
  intro ls
  induction ls with
  | nil => intro i k h; exact absurd h (by simp [bunLocPass1])
  | cons l t ih =>
    intro i k h
    unfold bunLocPass1 at h
    split at h
    · split at h
      · rename_i hr
        cases Option.some.inj h
        exact bunWindowScanGe version _ _ _ hr
      · exact ih _ _ h
    · exact ih _ _ h

theorem bunLocPass1None (name version : Str) :
    ∀ (ls : List Str) (i : Nat),
      (∀ l ∈ ls, ¬ containsSub l ('"' :: name ++ ['"'])) →
      bunLocPass1 name version ls i = none := by
  intro ls
  induction ls with
  | nil => intro i _; rfl
  | cons l t ih =>
    intro i hno
    unfold bunLocPass1
    rw [if_neg (fun hc => hno l (List.mem_cons_self l t) hc.2.2)]
    exact ih _ (fun x hx => hno x (List.mem_cons_of_mem l hx))

theorem findLineInBunLockGe {content name version : Str} {k : Nat}
    (h : findLineInBunLock content name version = some k) : 1 ≤ k := by
  unfold findLineInBunLock at h
  dsimp only at h
  split at h
  · rename_i hr
    cases Option.some.inj h
    exact bunLocPass1Ge name version _ _ _ hr
  · split at h
    · cases Option.some.inj h
      omega
    · split at h
      · cases Option.some.inj h
        omega
      · exact absurd h (by simp)

theorem findLineInBunLockNone {content name version : Str}
    (hn : ¬ containsSub content name) (hv : ¬ containsSub content version) :
    findLineInBunLock content name version = none := by
  unfold findLineInBunLock
  dsimp only
  have e1 : bunLocPass1 name version (splitLines content) 0 = none := by
    refine bunLocPass1None name version _ 0 ?_
    intro l hl hc
    have c1 : name <:+: ('"' :: name ++ ['"']) := by
      have := List.infix_append ['"'] name ['"']
      simpa using this
    exact hn ((c1.trans hc).trans (memSplitLinesInfix hl))
  have e2 := findIdxLNone (fun l =>
      decide (containsSub l ('"' :: name ++ '@' :: version ++ ['"'])))
    (splitLines content) 0
    (by
      intro l hl
      have hnc : ¬ containsSub l ('"' :: name ++ '@' :: version ++ ['"']) := by
        intro hc
        have c1 : name <:+: ('"' :: name ++ '@' :: version ++ ['"']) := by
          have := List.infix_append ['"'] name ('@' :: version ++ ['"'])
          simpa using this
        exact hn ((c1.trans hc).trans (memSplitLinesInfix hl))
      simpa using hnc)
  have e3 := findIdxLNone (fun l => bunVerTest version l) (splitLines content) 0
    (by
      intro l hl
      cases hb : bunVerTest version l with
      | false => exact hb
      | true =>
        exact absurd ((bunVerTestInfix version l hb).trans (memSplitLinesInfix hl)) hv)
  rw [e1, e2, e3]

/-- C8 (counterexample): `findLockfileLine` does NOT always return "not
found" when the requested (name, version) pair is absent — for an npm
lockfile containing `"node_modules/foo"` but no version `9.9.9` anywhere,
the locator ignores the version and still returns line 1. -/
theorem c8_counterexample :
    findLockfileLine (("package-lock.json".toList)) c8Content
      (("foo".toList)) (("9.9.9".toList)) = some 1 ∧
    ¬ containsSub c8Content (("9.9.9".toList)) := by
  refine ⟨by decide, by decide⟩

/-- C8 (amended): `findLockfileLine` is total and returns either a 1-based
line number (never 0) or "not found"; and whenever neither the name nor the
version occurs anywhere in the text, it returns "not found". -/
theorem c8_locator_total (path content name version : Str) :
    (∀ k, findLockfileLine path content name version = some k → 1 ≤ k) ∧
    (¬ containsSub content name → ¬ containsSub content version →
      findLockfileLine path content name version = none) := by
  constructor
  · intro k hk
    unfold findLockfileLine at hk
    by_cases h1 : endsWithL path (("package-lock.json".toList))
    · rw [if_pos h1] at hk
      exact findLineInNpmLockGe hk
    · rw [if_neg h1] at hk
      by_cases h2 : endsWithL path (("pnpm-lock.yaml".toList))
      · rw [if_pos h2] at hk
        exact findLineInPnpmLockGe hk
      · rw [if_neg h2] at hk
        by_cases h3 : endsWithL path (("yarn.lock".toList))
        · rw [if_pos h3] at hk
          by_cases h5 : containsSub content yarnV1Marker
          · rw [if_pos h5] at hk
            exact findLineInYarnV1LockGe hk
          · rw [if_neg h5] at hk
            exact findLineInYarnBerryLockGe hk
        · rw [if_neg h3] at hk
          by_cases h4 : endsWithL path (("bun.lock".toList))
          · rw [if_pos h4] at hk
            exact findLineInBunLockGe hk
          · rw [if_neg h4] at hk
            exact absurd hk (by simp)
  · intro hn hv
    unfold findLockfileLine
    by_cases h1 : endsWithL path (("package-lock.json".toList))
    · rw [if_pos h1]
      exact findLineInNpmLockNone hn
    · rw [if_neg h1]
      by_cases h2 : endsWithL path (("pnpm-lock.yaml".toList))
      · rw [if_pos h2]
        exact findLineInPnpmLockNone hn
      · rw [if_neg h2]
        by_cases h3 : endsWithL path (("yarn.lock".toList))
        · rw [if_pos h3]
          by_cases h5 : containsSub content yarnV1Marker
          · rw [if_pos h5]
            exact findLineInYarnV1LockNone hn
          · rw [if_neg h5]
            exact findLineInYarnBerryLockNone hn
        · rw [if_neg h3]
          by_cases h4 : endsWithL path (("bun.lock".toList))
          · rw [if_pos h4]
            exact findLineInBunLockNone hn hv
          · rw [if_neg h4]

/-- C8 (witness): the amended totality applied to a pnpm text containing
neither the name nor the version. -/
theorem c8_witness :
    findLockfileLine (("pnpm-lock.yaml".toList)) (("packages:".toList))
      (("xyz".toList)) (("9".toList)) = none :=
  (c8_locator_total (("pnpm-lock.yaml".toList)) (("packages:".toList))
    (("xyz".toList)) (("9".toList))).2 (by decide) (by decide)
